import Mathlib

/-!
Verification of the algorithmic core of the open_FDA repository
(`event_report.py` and the R analysis chunks it generates): text
normalization, greedy fuzzy grouping, category standardization, the 80%
concentration (Pareto) selection, and the monthly z-score outlier
detection.
-/

namespace OpenFDAReport

/- ============================================================
   Text Normalizer: `normalize_text` in event_report.py.

     if pd.isna(text): return ""
     text = str(text).upper()
     text = re.sub(r"[^A-Z0-9 ]", " ", text)
     text = re.sub(r"\s+", " ", text).strip()

   The single-character class `[^A-Z0-9 ]` replaces each disallowed
   character with one space; after that pass the only whitespace left in
   the string is the plain space, so the `\s+` pass collapses maximal
   runs of spaces and `strip` removes spaces at the two ends.
   ============================================================ -/

/-- Characters kept by the regex `[^A-Z0-9 ]` replacement: uppercase
letters, digits, and the space. -/
def isKeep (c : Char) : Bool :=
  (decide ('A' ≤ c) && decide (c ≤ 'Z')) ||
  (decide ('0' ≤ c) && decide (c ≤ '9')) ||
  (c == ' ')

/-- One character of `re.sub(r"[^A-Z0-9 ]", " ", text)`. -/
def replaceChar (c : Char) : Char := if isKeep c then c else ' '

/-- Collapse every maximal run of spaces to a single space:
`re.sub(r"\s+", " ", text)` applied to a string whose only whitespace
character is the space. -/
def collapseSpaces : List Char → List Char
  | [] => []
  | [c] => [c]
  | a :: b :: rest =>
      if a == ' ' && b == ' ' then collapseSpaces (b :: rest)
      else a :: collapseSpaces (b :: rest)

/-- Python `str.strip()` on a string whose only whitespace character is
the space: drop spaces from both ends. -/
def stripSpaces (l : List Char) : List Char :=
  (l.dropWhile (· == ' ')).rdropWhile (· == ' ')

/-- The normalization pipeline on a list of characters: uppercase,
replace disallowed characters by spaces, collapse space runs, strip the
ends. -/
def normalizeL (l : List Char) : List Char :=
  stripSpaces (collapseSpaces ((l.map Char.toUpper).map replaceChar))

/-- `normalize_text` on an actual (non-missing) string. -/
def normalizeStr (s : String) : String := String.mk (normalizeL s.data)

/-- `normalize_text` of event_report.py: a missing value (`pd.isna`)
yields the empty string, a present string goes through the
normalization pipeline. -/
def normalize_text : Option String → String
  | none => ""
  | some s => normalizeStr s

/- ============================================================
   Fuzzy Grouper: `fuzzy_group` of event_report.py.

     groups = []
     for value in values:
         if not value: continue
         matched = False
         for group in groups:
             if fuzz.partial_ratio(value, group[0]) > threshold:
                 group.append(value); matched = True; break
         if not matched: groups.append([value])

   The similarity function `fuzz.partial_ratio` is kept as an explicit
   parameter (`score(a, b) -> 0..100`): only the greedy clustering and
   the strict `score > threshold` test are modelled, not the scoring
   library's internals.
   ============================================================ -/

/-- The type of the pluggable similarity function. -/
def ScoreFn := String → String → Nat

/-- A cluster's seed: `group[0]`, its first-ever member (clusters are
never empty in the source; the default covers the `[]` case only
formally). -/
def seedOf (g : List String) : String := g.headD ""

/-- The inner loop of `fuzzy_group` for one incoming value: append it to
the first existing group whose seed scores strictly above the threshold,
else append a new singleton group at the end. -/
def joinGroup (scoreFn : ScoreFn) (t : Nat) (v : String) :
    List (List String) → List (List String)
  | [] => [[v]]
  | g :: gs =>
      if t < scoreFn v (seedOf g) then (g ++ [v]) :: gs
      else g :: joinGroup scoreFn t v gs

/-- `fuzzy_group(values, threshold)`: fold over the values in order,
skipping falsy (empty) strings. -/
def fuzzy_group (scoreFn : ScoreFn) (t : Nat) (values : List String) :
    List (List String) :=
  values.foldl (fun gs v => if v = "" then gs else joinGroup scoreFn t v gs) []

/-- Modelled from the spec (§4.2 wording): for each incoming value,
compare it to each existing cluster's seed in cluster-creation order and
join the first cluster whose seed scores above threshold; if none
matches, start a new cluster with this value as seed and sole member.
No value is skipped. -/
def specStep (scoreFn : ScoreFn) (t : Nat) (gs : List (List String)) (v : String) :
    List (List String) :=
  match gs.findIdx? (fun g => decide (t < scoreFn v (g.headD ""))) with
  | some i => gs.set i ((gs.getD i []) ++ [v])
  | none => gs ++ [[v]]

/-- Modelled from the spec: the whole grouping pass of §4.2, a fold of
`specStep` over the values in first-appearance order. -/
def spec_group (scoreFn : ScoreFn) (t : Nat) (values : List String) :
    List (List String) :=
  values.foldl (specStep scoreFn t) []

/- ============================================================
   Category Standardizer: `standardize_series` of event_report.py.

     cleaned = series.fillna("").astype(str).apply(normalize_text)
     uniques = cleaned.unique()
     groups = fuzzy_group(uniques, threshold)
     mapping = {}
     for group in groups:
         canonical = min(group, key=len)
         for item in group: mapping[item] = canonical
     return cleaned.map(mapping)

   A column is a `List (Option String)` (None = pandas NaN); `.map` of a
   dict sends keys missing from the dict to NaN, modelled by an
   association function `String → Option String`.
   ============================================================ -/

/-- Canonical label of a cluster: `min(group, key=len)` — Python's `min`
returns the first element attaining the minimum length. -/
def canonicalOf : List String → String
  | [] => ""
  | h :: rest => rest.foldl (fun best x => if x.length < best.length then x else best) h

/-- One dict write `mapping[item] = c` (later writes shadow earlier
ones). -/
def updateOne (c : String) (m : String → Option String) (item : String) :
    String → Option String :=
  fun x => if x = item then some c else m x

/-- The inner loop `for item in group: mapping[item] = canonical`. -/
def updateGroup (g : List String) (c : String) (m : String → Option String) :
    String → Option String :=
  g.foldl (updateOne c) m

/-- The `mapping` dict of standardize_series, starting empty. -/
def buildMapping (groups : List (List String)) : String → Option String :=
  groups.foldl (fun m g => updateGroup g (canonicalOf g) m) (fun _ => none)

/-- pandas `Series.unique()`: the distinct values in first-appearance
order. -/
def dedupFirst (l : List String) : List String :=
  l.foldl (fun acc v => if v ∈ acc then acc else acc ++ [v]) []

/-- The `cleaned` column: `fillna("")` then `normalize_text`, entrywise. -/
def cleanedCol (col : List (Option String)) : List String :=
  col.map normalize_text

/-- The mapping standardize_series builds for a raw column. -/
def mappingOf (scoreFn : ScoreFn) (t : Nat) (col : List (Option String)) :
    String → Option String :=
  buildMapping (fuzzy_group scoreFn t (dedupFirst (cleanedCol col)))

/-- `standardize_series(series, threshold)`: `cleaned.map(mapping)`.
A cleaned value absent from the dict becomes NaN (`none`). -/
def standardize_series (scoreFn : ScoreFn) (t : Nat) (col : List (Option String)) :
    List (Option String) :=
  (cleanedCol col).map (mappingOf scoreFn t col)

/-- A trivial similarity function (never above any threshold), used for
concrete inputs whose behavior does not depend on the scores. -/
def zeroScore : ScoreFn := fun _ _ => 0

/-- A concrete similarity function (values in 0..100) under which
restandardizing a standardized column changes it: the canonicals of two
clusters score above the threshold even though their seeds did not. -/
def exScore : ScoreFn := fun a b =>
  if a == "AA" && b == "AAA" then 90
  else if a == "AB" && b == "AA" then 90
  else 10

/-- The concrete raw column for the restandardization counterexample. -/
def exCol : List (Option String) := [some "AAA", some "AA", some "AB"]

/- ============================================================
   Concentration (Pareto) Analyzer: the `*_80` selection of the
   generated R code (generate_quarto_report):

     all <- count(x, sort = TRUE)                 -- counts, descending
     total <- sum(all$n)
     all <- mutate(all, cumulative_n = cumsum(n),
                        cumulative_pct = cumulative_n / total)
     sel <- all |> mutate(prev_pct = lag(cumulative_pct, default = 0)) |>
                   filter(prev_pct < 0.80)
     if (nrow(sel) == 0) sel <- slice_head(all, n = 1)
     other_n <- total - sum(sel$n)

   Counts are Nats, fractions are exact rationals. (When total = 0 the R
   fractions are NaN; all theorems below about the selection are stated
   for a nonzero total, where the rational model is exact.)
   ============================================================ -/

/-- Grand total of a category-count table. -/
def totalCount (rows : List (String × Nat)) : Nat :=
  (rows.map (fun r => r.2)).sum

/-- Insert one row into a count-descending sorted list (stable: equal
counts keep the earlier row first). -/
def insertDescBy {α : Type} (key : α → ℚ) (r : α) : List α → List α
  | [] => [r]
  | x :: xs => if key x ≤ key r then r :: x :: xs else x :: insertDescBy key r xs

/-- Stable insertion sort, descending by `key`. -/
def sortDescBy {α : Type} (key : α → ℚ) (l : List α) : List α :=
  l.foldr (insertDescBy key) []

/-- `count(x, sort = TRUE)`: rows sorted by count, descending. -/
def sortDesc (rows : List (String × Nat)) : List (String × Nat) :=
  sortDescBy (fun r => (r.2 : ℚ)) rows

/-- Pair each row with the cumulative count of all rows before it:
`lag(cumsum(n), default = 0)`. -/
def lagged (acc : Nat) : List (String × Nat) → List ((String × Nat) × Nat)
  | [] => []
  | r :: rest => (r, acc) :: lagged (acc + r.2) rest

/-- The cumulative count accumulated strictly before row `i`. -/
def prefixBefore (rows : List (String × Nat)) (i : Nat) : Nat :=
  ((lagged 0 rows).map (fun rp => rp.2)).getD i 0

/-- `filter(prev_pct < t)` on the lagged table, keeping the rows. -/
def selectCore (t : ℚ) (rows : List (String × Nat)) : List (String × Nat) :=
  ((lagged 0 rows).filter
      (fun rp => decide ((rp.2 : ℚ) / (totalCount rows : ℚ) < t))).map
    (fun rp => rp.1)

/-- The selection with the `if (nrow == 0) slice_head(n = 1)` fallback. -/
def select80 (t : ℚ) (rows : List (String × Nat)) : List (String × Nat) :=
  if selectCore t rows = [] then rows.take 1 else selectCore t rows

/-- The full Pareto selection: sort by count descending, then select by
the lagged cumulative-fraction rule. -/
def concentrationSelect (t : ℚ) (counts : List (String × Nat)) : List (String × Nat) :=
  select80 t (sortDesc counts)

/-- The `Other` bucket: `total - sum(sel$n)` (R numeric subtraction,
modelled in ℤ). -/
def otherCount (t : ℚ) (counts : List (String × Nat)) : ℤ :=
  (totalCount counts : ℤ) - (totalCount (concentrationSelect t counts) : ℤ)

/-- The selection rule claimed for the Pareto analyzer: a sorted row is
selected iff the cumulative fraction before it is strictly below `t`;
the selection is never empty; and the row that makes the cumulative
fraction cross `t` is itself selected. -/
def ParetoSelectionCorrect (counts : List (String × Nat)) (t : ℚ) : Prop :=
  (∀ i : Fin (sortDesc counts).length,
    (sortDesc counts).get i ∈ concentrationSelect t counts ↔
      (prefixBefore (sortDesc counts) i : ℚ) / (totalCount counts : ℚ) < t) ∧
  concentrationSelect t counts ≠ [] ∧
  (∀ i : Fin (sortDesc counts).length,
    (prefixBefore (sortDesc counts) i : ℚ) / (totalCount counts : ℚ) < t →
    t ≤ ((prefixBefore (sortDesc counts) i : ℚ) + ((sortDesc counts).get i).2) /
        (totalCount counts : ℚ) →
    (sortDesc counts).get i ∈ concentrationSelect t counts)

/- ============================================================
   Temporal Outlier Detector: the `compute-trend-stats` R chunk.

     mean <- mean(n); sd <- sd(n)
     z <- (n - mean) / sd
     peaks   <- filter(z >= 2)  |> arrange(desc(z))
     valleys <- filter(z <= -2) |> arrange(z)

   `sd` is the sample standard deviation; the square root is kept as an
   explicit parameter `sqrtFn` (floating point in R). When sd = 0 every
   z is NaN in R (each count equals the mean) and NaN comparisons drop
   the row from every filter; this is modelled by an `Option ℚ` z-score
   that is `none` when the standard deviation is zero.
   ============================================================ -/

/-- Arithmetic mean of the monthly counts (ℚ; division by zero only for
an empty list, where R would give NaN and no bucket exists anyway). -/
def meanOf (l : List ℚ) : ℚ := l.sum / l.length

/-- Sample variance (denominator n - 1), the square of R's `sd`. -/
def sampleVar (l : List ℚ) : ℚ :=
  (l.map (fun x => (x - meanOf l) ^ 2)).sum / ((l.length : ℚ) - 1)

/-- The monthly table extended with z-scores: a bucket is a
(month, count) pair; `none` models R's NaN z when sd = 0. -/
def zScoreCol (sdv m : ℚ) (bs : List (Nat × ℚ)) : List ((Nat × ℚ) × Option ℚ) :=
  bs.map (fun b => (b, if sdv = 0 then none else some ((b.2 - m) / sdv)))

/-- `significant_peaks`: buckets with z ≥ 2, most extreme first. -/
def significantPeaks (sqrtFn : ℚ → ℚ) (bs : List (Nat × ℚ)) :
    List ((Nat × ℚ) × Option ℚ) :=
  sortDescBy (fun bz => bz.2.getD 0)
    ((zScoreCol (sqrtFn (sampleVar (bs.map (fun b => b.2))))
        (meanOf (bs.map (fun b => b.2))) bs).filter
      (fun bz => match bz.2 with | some z => decide (2 ≤ z) | none => false))

/-- `significant_valleys`: buckets with z ≤ -2, most extreme first. -/
def significantValleys (sqrtFn : ℚ → ℚ) (bs : List (Nat × ℚ)) :
    List ((Nat × ℚ) × Option ℚ) :=
  sortDescBy (fun bz => -(bz.2.getD 0))
    ((zScoreCol (sqrtFn (sampleVar (bs.map (fun b => b.2))))
        (meanOf (bs.map (fun b => b.2))) bs).filter
      (fun bz => match bz.2 with | some z => decide (z ≤ -2) | none => false))

/- ============================================================
   Helper lemmas: the text normalizer.
   ============================================================ -/

lemma isKeep_toUpper {c : Char} (h : isKeep c = true) : c.toUpper = c := by
  simp only [isKeep, Bool.or_eq_true, Bool.and_eq_true, decide_eq_true_eq, beq_iff_eq] at h
  have hn : c.toNat < 97 := by
    rcases h with (⟨h1, h2⟩ | ⟨h1, h2⟩) | h1
    · have h3 : c.toNat ≤ 90 := by
        simp only [Char.le_def, UInt32.le_def, BitVec.le_def] at h2
        simpa [Char.toNat, UInt32.toNat] using h2
      omega
    · have h3 : c.toNat ≤ 57 := by
        simp only [Char.le_def, UInt32.le_def, BitVec.le_def] at h2
        simpa [Char.toNat, UInt32.toNat] using h2
      omega
    · subst h1; decide
  unfold Char.toUpper
  rw [if_neg]
  omega

lemma isKeep_replaceChar {c : Char} (h : isKeep c = true) : replaceChar c = c := by
  simp [replaceChar, h]

lemma isKeep_of_replaceChar (c : Char) : isKeep (replaceChar c) = true := by
  unfold replaceChar
  split
  · assumption
  · decide

lemma mem_collapseSpaces {c : Char} : ∀ {l : List Char}, c ∈ collapseSpaces l → c ∈ l
  | [], h => by simp [collapseSpaces] at h
  | [a], h => by simpa [collapseSpaces] using h
  | a :: b :: rest, h => by
      rw [collapseSpaces] at h
      split at h
      · exact List.mem_cons_of_mem _ (mem_collapseSpaces h)
      · rcases List.mem_cons.1 h with h1 | h1
        · exact h1 ▸ List.mem_cons_self _ _
        · exact List.mem_cons_of_mem _ (mem_collapseSpaces h1)

lemma head?_collapseSpaces : ∀ l : List Char, (collapseSpaces l).head? = l.head?
  | [] => rfl
  | [a] => rfl
  | a :: b :: rest => by
      rw [collapseSpaces]
      split
      · rename_i h
        simp only [Bool.and_eq_true, beq_iff_eq] at h
        rw [head?_collapseSpaces (b :: rest)]
        simp [h.1, h.2]
      · rfl

lemma chain'_collapseSpaces :
    ∀ l : List Char, List.Chain' (fun a b => ¬(a = ' ' ∧ b = ' ')) (collapseSpaces l)
  | [] => by simp [collapseSpaces]
  | [a] => by simp [collapseSpaces]
  | a :: b :: rest => by
      rw [collapseSpaces]
      split
      · exact chain'_collapseSpaces (b :: rest)
      · rename_i h
        rw [List.chain'_cons']
        refine ⟨?_, chain'_collapseSpaces (b :: rest)⟩
        intro y hy
        rw [head?_collapseSpaces (b :: rest)] at hy
        simp only [List.head?_cons, Option.mem_def, Option.some.injEq] at hy
        subst hy
        simp only [Bool.and_eq_true, beq_iff_eq] at h
        tauto

lemma collapseSpaces_of_chain' :
    ∀ {l : List Char}, List.Chain' (fun a b => ¬(a = ' ' ∧ b = ' ')) l → collapseSpaces l = l
  | [], _ => rfl
  | [a], _ => rfl
  | a :: b :: rest, h => by
      rw [List.chain'_cons] at h
      rw [collapseSpaces, if_neg, collapseSpaces_of_chain' h.2]
      simp only [Bool.and_eq_true, beq_iff_eq]
      exact h.1

lemma mem_stripSpaces {c : Char} {l : List Char} (h : c ∈ stripSpaces l) : c ∈ l := by
  unfold stripSpaces at h
  have hp := List.rdropWhile_prefix (· == ' ') (l.dropWhile (· == ' '))
  exact (List.dropWhile_suffix _).sublist.subset (hp.sublist.subset h)

lemma chain'_stripSpaces {R : Char → Char → Prop} {l : List Char}
    (h : List.Chain' R l) : List.Chain' R (stripSpaces l) := by
  unfold stripSpaces
  have hp := List.rdropWhile_prefix (· == ' ') (l.dropWhile (· == ' '))
  have h1 : List.Chain' R (l.dropWhile (· == ' ')) :=
    List.Chain'.suffix h (List.dropWhile_suffix _)
  exact List.Chain'.prefix h1 hp

lemma head?_stripSpaces_not {l : List Char} {c : Char}
    (h : (stripSpaces l).head? = some c) : c ≠ ' ' := by
  obtain ⟨t, ht⟩ := List.rdropWhile_prefix (· == ' ') (l.dropWhile (· == ' '))
  have h1 : (l.dropWhile (· == ' ')).head? = some c := by
    rw [← ht, List.head?_append]
    have h0 : (l.dropWhile (· == ' ')).rdropWhile (· == ' ') = stripSpaces l := rfl
    rw [h0, h]
    rfl
  have h2 := List.head?_dropWhile_not (· == ' ') l
  rw [h1] at h2
  simpa using h2

lemma getLast?_stripSpaces_not {l : List Char} {c : Char}
    (h : (stripSpaces l).getLast? = some c) : c ≠ ' ' := by
  have hne : stripSpaces l ≠ [] := by
    intro h0; rw [h0] at h; simp at h
  have h1 := List.rdropWhile_last_not (p := (· == ' ')) (l := l.dropWhile (· == ' ')) hne
  rw [List.getLast?_eq_getLast _ hne] at h
  have h2 : (stripSpaces l).getLast hne = c := by simpa using h
  rw [← h2]
  intro h0
  exact h1 (by simpa using h0)

lemma stripSpaces_of_clean {l : List Char}
    (hh : ∀ c, l.head? = some c → c ≠ ' ')
    (hl : ∀ c, l.getLast? = some c → c ≠ ' ') : stripSpaces l = l := by
  unfold stripSpaces
  have h1 : l.dropWhile (· == ' ') = l := by
    rw [List.dropWhile_eq_self_iff]
    intro hlen hp
    rw [List.get_mk_zero] at hp
    exact hh _ (List.head?_eq_head (List.length_pos.mp hlen)) (by simpa using hp)
  rw [h1, List.rdropWhile_eq_self_iff]
  intro hne hp
  exact hl _ (List.getLast?_eq_getLast _ hne) (by simpa using hp)

lemma isKeep_of_mem_normalizeL {c : Char} {l : List Char} (h : c ∈ normalizeL l) :
    isKeep c = true := by
  unfold normalizeL at h
  have h1 := mem_collapseSpaces (mem_stripSpaces h)
  rcases List.mem_map.1 h1 with ⟨d, _, rfl⟩
  exact isKeep_of_replaceChar d

lemma normalizeL_idem (l : List Char) : normalizeL (normalizeL l) = normalizeL l := by
  have hkeep : ∀ c ∈ normalizeL l, isKeep c = true := fun c hc => isKeep_of_mem_normalizeL hc
  have hup : (normalizeL l).map Char.toUpper = normalizeL l := by
    have h0 : (normalizeL l).map Char.toUpper = (normalizeL l).map id :=
      List.map_congr_left fun c hc => isKeep_toUpper (hkeep c hc)
    rw [h0, List.map_id]
  have hrep : (normalizeL l).map replaceChar = normalizeL l := by
    have h0 : (normalizeL l).map replaceChar = (normalizeL l).map id :=
      List.map_congr_left fun c hc => isKeep_replaceChar (hkeep c hc)
    rw [h0, List.map_id]
  have hchain : List.Chain' (fun a b => ¬(a = ' ' ∧ b = ' ')) (normalizeL l) := by
    unfold normalizeL
    exact chain'_stripSpaces (chain'_collapseSpaces _)
  have hcol : collapseSpaces (normalizeL l) = normalizeL l := collapseSpaces_of_chain' hchain
  have hstrip : stripSpaces (normalizeL l) = normalizeL l := by
    apply stripSpaces_of_clean
    · intro c hc
      apply head?_stripSpaces_not (l := collapseSpaces ((l.map Char.toUpper).map replaceChar))
      exact hc
    · intro c hc
      apply getLast?_stripSpaces_not (l := collapseSpaces ((l.map Char.toUpper).map replaceChar))
      exact hc
  conv_lhs => rw [normalizeL, hup, hrep, hcol, hstrip]

lemma normalizeStr_idem (s : String) : normalizeStr (normalizeStr s) = normalizeStr s := by
  unfold normalizeStr
  rw [normalizeL_idem]

/- ============================================================
   Helper lemmas: the fuzzy grouper and the mapping.
   ============================================================ -/

lemma joinGroup_flatten_perm (scoreFn : ScoreFn) (t : Nat) (v : String) :
    ∀ gs : List (List String), (joinGroup scoreFn t v gs).flatten.Perm (v :: gs.flatten)
  | [] => by simp [joinGroup]
  | g :: gs => by
      rw [joinGroup]
      split
      · simp only [List.flatten_cons, List.append_assoc, List.singleton_append]
        exact List.perm_middle
      · simp only [List.flatten_cons]
        exact ((joinGroup_flatten_perm scoreFn t v gs).append_left g).trans List.perm_middle

lemma fuzzy_fold_flatten_perm (scoreFn : ScoreFn) (t : Nat) :
    ∀ (values : List String) (gs0 : List (List String)),
      (values.foldl (fun gs v => if v = "" then gs else joinGroup scoreFn t v gs) gs0).flatten.Perm
        (gs0.flatten ++ values.filter (fun v => !(v == "")))
  | [], gs0 => by simp
  | v :: vs, gs0 => by
      rw [List.foldl_cons, List.filter_cons]
      by_cases hv : v = ""
      · rw [if_pos hv]
        have hb : (!(v == "")) = false := by simp [hv]
        rw [hb]
        simpa using fuzzy_fold_flatten_perm scoreFn t vs gs0
      · rw [if_neg hv]
        have hb : (!(v == "")) = true := by simp [hv]
        rw [hb, if_pos rfl]
        refine ((fuzzy_fold_flatten_perm scoreFn t vs _).trans ?_)
        refine ((joinGroup_flatten_perm scoreFn t v gs0).append_right _).trans ?_
        simpa using List.perm_middle.symm

lemma fuzzy_group_flatten_perm (scoreFn : ScoreFn) (t : Nat) (values : List String) :
    (fuzzy_group scoreFn t values).flatten.Perm (values.filter (fun v => !(v == ""))) := by
  simpa using fuzzy_fold_flatten_perm scoreFn t values []

lemma mem_fuzzy_group_flatten (scoreFn : ScoreFn) (t : Nat) (values : List String)
    (x : String) :
    x ∈ (fuzzy_group scoreFn t values).flatten ↔ (x ∈ values ∧ x ≠ "") := by
  rw [(fuzzy_group_flatten_perm scoreFn t values).mem_iff, List.mem_filter]
  simp

lemma nodup_fuzzy_group_flatten (scoreFn : ScoreFn) (t : Nat) {values : List String}
    (h : values.Nodup) : (fuzzy_group scoreFn t values).flatten.Nodup :=
  ((fuzzy_group_flatten_perm scoreFn t values).nodup_iff).mpr (h.filter _)

lemma joinGroup_ne_nil (scoreFn : ScoreFn) (t : Nat) (v : String) :
    ∀ gs : List (List String), (∀ g ∈ gs, g ≠ []) →
      ∀ g ∈ joinGroup scoreFn t v gs, g ≠ []
  | [], _ => by simp [joinGroup]
  | g0 :: gs, h => by
      rw [joinGroup]
      split
      · intro g hg
        rcases List.mem_cons.1 hg with rfl | hg
        · simp
        · exact h g (List.mem_cons_of_mem _ hg)
      · intro g hg
        rcases List.mem_cons.1 hg with rfl | hg
        · exact h g (List.mem_cons_self _ _)
        · exact joinGroup_ne_nil scoreFn t v gs
            (fun g' hg' => h g' (List.mem_cons_of_mem _ hg')) g hg

lemma fuzzy_group_ne_nil (scoreFn : ScoreFn) (t : Nat) (values : List String) :
    ∀ g ∈ fuzzy_group scoreFn t values, g ≠ [] := by
  suffices h : ∀ (vs : List String) (gs0 : List (List String)), (∀ g ∈ gs0, g ≠ []) →
      ∀ g ∈ vs.foldl (fun gs v => if v = "" then gs else joinGroup scoreFn t v gs) gs0, g ≠ [] by
    exact h values [] (by simp)
  intro vs
  induction vs with
  | nil => intro gs0 h g hg; exact h g hg
  | cons v vs ih =>
      intro gs0 h g hg
      rw [List.foldl_cons] at hg
      by_cases hv : v = ""
      · rw [if_pos hv] at hg; exact ih gs0 h g hg
      · rw [if_neg hv] at hg
        exact ih _ (joinGroup_ne_nil scoreFn t v gs0 h) g hg

lemma fuzzy_group_pairwise_disjoint (scoreFn : ScoreFn) (t : Nat)
    {values : List String} (h : values.Nodup) :
    (fuzzy_group scoreFn t values).Pairwise List.Disjoint :=
  (List.nodup_flatten.mp (nodup_fuzzy_group_flatten scoreFn t h)).2

lemma updateGroup_not_mem {x : String} :
    ∀ (g : List String) (c : String) (m : String → Option String), x ∉ g →
      updateGroup g c m x = m x
  | [], _, _, _ => rfl
  | a :: g, c, m, h => by
      rw [updateGroup, List.foldl_cons]
      have hx : x ∉ g := fun hx => h (List.mem_cons_of_mem _ hx)
      have ha : x ≠ a := fun hx => h (hx ▸ List.mem_cons_self _ _)
      rw [show (g.foldl (updateOne c) (updateOne c m a)) = updateGroup g c (updateOne c m a) from rfl]
      rw [updateGroup_not_mem g c _ hx]
      simp [updateOne, ha]

lemma updateGroup_mem {x : String} :
    ∀ (g : List String) (c : String) (m : String → Option String), x ∈ g →
      updateGroup g c m x = some c
  | [], _, _, h => absurd h (List.not_mem_nil x)
  | a :: g, c, m, h => by
      rw [updateGroup, List.foldl_cons]
      rw [show (g.foldl (updateOne c) (updateOne c m a)) = updateGroup g c (updateOne c m a) from rfl]
      by_cases hx : x ∈ g
      · exact updateGroup_mem g c _ hx
      · have ha : x = a := by
          rcases List.mem_cons.1 h with h1 | h1
          · exact h1
          · exact absurd h1 hx
        rw [updateGroup_not_mem g c _ hx]
        simp [updateOne, ha]

lemma buildMapping_fold_not_mem {x : String} :
    ∀ (groups : List (List String)) (m0 : String → Option String),
      (∀ g ∈ groups, x ∉ g) →
      groups.foldl (fun m g => updateGroup g (canonicalOf g) m) m0 x = m0 x
  | [], m0, _ => rfl
  | g :: groups, m0, h => by
      rw [List.foldl_cons]
      rw [buildMapping_fold_not_mem groups _ (fun g' hg' => h g' (List.mem_cons_of_mem _ hg'))]
      exact updateGroup_not_mem g _ m0 (h g (List.mem_cons_self _ _))

lemma buildMapping_not_mem {x : String} {groups : List (List String)}
    (h : ∀ g ∈ groups, x ∉ g) : buildMapping groups x = none :=
  buildMapping_fold_not_mem groups _ h

lemma buildMapping_mem {x : String} {groups : List (List String)} {g : List String}
    (hg : g ∈ groups) (hx : x ∈ g) (hnd : groups.flatten.Nodup) :
    buildMapping groups x = some (canonicalOf g) := by
  obtain ⟨l1, l2, rfl⟩ := List.append_of_mem hg
  have hx2 : ∀ g' ∈ l2, x ∉ g' := by
    intro g' hg' hx'
    rw [List.flatten_append, List.flatten_cons] at hnd
    have hd := (List.nodup_append.mp hnd).2
    have hd2 := (List.nodup_append.mp hd.1).2.2
    exact hd2 hx (List.mem_flatten.mpr ⟨g', hg', hx'⟩)
  unfold buildMapping
  rw [List.foldl_append, List.foldl_cons]
  rw [buildMapping_fold_not_mem l2 _ hx2]
  exact updateGroup_mem g _ _ hx

lemma minFold_spec :
    ∀ (rest : List String) (best : String),
      ∃ l1 l2,
        best :: rest =
          l1 ++ (rest.foldl (fun b x => if x.length < b.length then x else b) best) :: l2 ∧
        (∀ x ∈ l1,
          (rest.foldl (fun b x => if x.length < b.length then x else b) best).length < x.length) ∧
        (∀ x ∈ best :: rest,
          (rest.foldl (fun b x => if x.length < b.length then x else b) best).length ≤ x.length)
  | [], best => ⟨[], [], by simp⟩
  | x :: rest, best => by
      rw [List.foldl_cons]
      by_cases hx : x.length < best.length
      · rw [if_pos hx]
        obtain ⟨l1, l2, he, hlt, hle⟩ := minFold_spec rest x
        refine ⟨best :: l1, l2, by rw [List.cons_append, ← he], ?_, ?_⟩
        · intro y hy
          rcases List.mem_cons.1 hy with rfl | hy
          · exact Nat.lt_of_le_of_lt (hle x (List.mem_cons_self _ _)) hx
          · exact hlt y hy
        · intro y hy
          rcases List.mem_cons.1 hy with rfl | hy
          · exact Nat.le_of_lt (Nat.lt_of_le_of_lt (hle x (List.mem_cons_self _ _)) hx)
          · exact hle y hy
      · rw [if_neg hx]
        obtain ⟨l1, l2, he, hlt, hle⟩ := minFold_spec rest best
        have hbx : best.length ≤ x.length := Nat.le_of_not_lt hx
        rcases l1 with _ | ⟨b0, l1t⟩
        · simp only [List.nil_append, List.cons.injEq] at he
          refine ⟨[], x :: rest, ?_, by simp, ?_⟩
          · rw [List.nil_append, ← he.1]
          · intro y hy
            rw [← he.1]
            rcases List.mem_cons.1 hy with rfl | hy
            · exact Nat.le_refl _
            · rcases List.mem_cons.1 hy with rfl | hy
              · exact hbx
              · have := hle y (List.mem_cons_of_mem _ hy)
                rw [← he.1] at this
                exact this
        · rw [List.cons_append, List.cons.injEq] at he
          obtain ⟨rfl, he2⟩ := he
          refine ⟨best :: x :: l1t, l2, ?_, ?_, ?_⟩
          · rw [List.cons_append, List.cons_append, ← he2]
          · intro y hy
            have hb0 := hlt best (List.mem_cons_self _ _)
            rcases List.mem_cons.1 hy with rfl | hy
            · exact hb0
            · rcases List.mem_cons.1 hy with rfl | hy
              · exact Nat.lt_of_lt_of_le hb0 hbx
              · exact hlt y (List.mem_cons_of_mem _ hy)
          · intro y hy
            rcases List.mem_cons.1 hy with rfl | hy
            · exact hle y (List.mem_cons_self _ _)
            · rcases List.mem_cons.1 hy with rfl | hy
              · exact Nat.le_trans (hle best (List.mem_cons_self _ _)) hbx
              · exact hle y (List.mem_cons_of_mem _ hy)

lemma canonicalOf_spec {g : List String} (h : g ≠ []) :
    ∃ l1 l2, g = l1 ++ canonicalOf g :: l2 ∧
      (∀ x ∈ l1, (canonicalOf g).length < x.length) ∧
      (∀ x ∈ g, (canonicalOf g).length ≤ x.length) := by
  cases g with
  | nil => exact absurd rfl h
  | cons b rest => exact minFold_spec rest b

lemma canonicalOf_mem {g : List String} (h : g ≠ []) : canonicalOf g ∈ g := by
  obtain ⟨l1, l2, he, _, _⟩ := canonicalOf_spec h
  have h1 : canonicalOf g ∈ l1 ++ canonicalOf g :: l2 :=
    List.mem_append.mpr (Or.inr (List.mem_cons_self _ _))
  rw [← he] at h1
  exact h1

lemma joinGroup_eq_specStep (scoreFn : ScoreFn) (t : Nat) (v : String) :
    ∀ gs : List (List String), joinGroup scoreFn t v gs = specStep scoreFn t gs v
  | [] => by simp [joinGroup, specStep]
  | g :: gs => by
      by_cases h : t < scoreFn v (g.headD "")
      · rw [joinGroup, if_pos (by simpa [seedOf] using h)]
        unfold specStep
        rw [List.findIdx?_cons, if_pos (by simpa using h)]
        simp
      · rw [joinGroup, if_neg (by simpa [seedOf] using h)]
        unfold specStep
        rw [List.findIdx?_cons, if_neg (by simpa using h), List.findIdx?_succ]
        rw [joinGroup_eq_specStep scoreFn t v gs]
        unfold specStep
        cases hidx : gs.findIdx? (fun g => decide (t < scoreFn v (g.headD ""))) with
        | none => simp
        | some i => simp

lemma fuzzy_fold_eq_spec_fold (scoreFn : ScoreFn) (t : Nat) :
    ∀ (values : List String) (gs0 : List (List String)), "" ∉ values →
      values.foldl (fun gs v => if v = "" then gs else joinGroup scoreFn t v gs) gs0 =
        values.foldl (specStep scoreFn t) gs0
  | [], gs0, _ => rfl
  | v :: vs, gs0, h => by
      have hv : v ≠ "" := fun hv => h (hv ▸ List.mem_cons_self _ _)
      rw [List.foldl_cons, List.foldl_cons, if_neg hv, joinGroup_eq_specStep]
      exact fuzzy_fold_eq_spec_fold scoreFn t vs _ (fun hm => h (List.mem_cons_of_mem _ hm))

lemma dedupFirst_fold_nodup :
    ∀ (l acc : List String), acc.Nodup →
      (l.foldl (fun acc v => if v ∈ acc then acc else acc ++ [v]) acc).Nodup
  | [], _, h => h
  | v :: l, acc, h => by
      rw [List.foldl_cons]
      by_cases hv : v ∈ acc
      · rw [if_pos hv]; exact dedupFirst_fold_nodup l acc h
      · rw [if_neg hv]
        refine dedupFirst_fold_nodup l _ ?_
        simp [List.nodup_append, h, hv]

lemma dedupFirst_fold_mem (x : String) :
    ∀ (l acc : List String),
      (x ∈ l.foldl (fun acc v => if v ∈ acc then acc else acc ++ [v]) acc ↔
        x ∈ acc ∨ x ∈ l)
  | [], acc => by simp
  | v :: l, acc => by
      rw [List.foldl_cons]
      by_cases hv : v ∈ acc
      · rw [if_pos hv, dedupFirst_fold_mem x l acc]
        constructor
        · rintro (h | h)
          · exact Or.inl h
          · exact Or.inr (List.mem_cons_of_mem _ h)
        · rintro (h | h)
          · exact Or.inl h
          · rcases List.mem_cons.1 h with rfl | h
            · exact Or.inl hv
            · exact Or.inr h
      · rw [if_neg hv, dedupFirst_fold_mem x l _]
        simp only [List.mem_append, List.mem_singleton, List.mem_cons]
        tauto

lemma dedupFirst_nodup (l : List String) : (dedupFirst l).Nodup :=
  dedupFirst_fold_nodup l [] List.nodup_nil

lemma mem_dedupFirst {x : String} {l : List String} : x ∈ dedupFirst l ↔ x ∈ l := by
  rw [dedupFirst, dedupFirst_fold_mem]
  simp

/- ============================================================
   Helper lemmas: the standardizer's mapping on a column.
   ============================================================ -/

lemma normalizeStr_of_mem_cleaned {col : List (Option String)} {v : String}
    (h : v ∈ cleanedCol col) : normalizeStr v = v := by
  rcases List.mem_map.1 h with ⟨x, _, rfl⟩
  cases x with
  | none => rfl
  | some s => exact normalizeStr_idem s

lemma mappingOf_empty (scoreFn : ScoreFn) (t : Nat) (col : List (Option String)) :
    mappingOf scoreFn t col "" = none := by
  apply buildMapping_not_mem
  intro g hg hx
  have h1 := (mem_fuzzy_group_flatten scoreFn t (dedupFirst (cleanedCol col)) "").mp
    (List.mem_flatten.mpr ⟨g, hg, hx⟩)
  exact h1.2 rfl

lemma mappingOf_some (scoreFn : ScoreFn) (t : Nat) {col : List (Option String)}
    {v : String} (hv : v ∈ cleanedCol col) (hne : v ≠ "") :
    ∃ g, g ∈ fuzzy_group scoreFn t (dedupFirst (cleanedCol col)) ∧ v ∈ g ∧
      mappingOf scoreFn t col v = some (canonicalOf g) := by
  have hu : v ∈ dedupFirst (cleanedCol col) := mem_dedupFirst.mpr hv
  have hj : v ∈ (fuzzy_group scoreFn t (dedupFirst (cleanedCol col))).flatten :=
    (mem_fuzzy_group_flatten scoreFn t (dedupFirst (cleanedCol col)) v).mpr ⟨hu, hne⟩
  obtain ⟨g, hg, hx⟩ := List.mem_flatten.mp hj
  exact ⟨g, hg, hx,
    buildMapping_mem hg hx (nodup_fuzzy_group_flatten scoreFn t (dedupFirst_nodup _))⟩

lemma mappingOf_canonical {scoreFn : ScoreFn} {t : Nat} {col : List (Option String)}
    {g : List String} (hg : g ∈ fuzzy_group scoreFn t (dedupFirst (cleanedCol col))) :
    mappingOf scoreFn t col (canonicalOf g) = some (canonicalOf g) := by
  have hne : g ≠ [] := fuzzy_group_ne_nil scoreFn t _ g hg
  exact buildMapping_mem hg (canonicalOf_mem hne)
    (nodup_fuzzy_group_flatten scoreFn t (dedupFirst_nodup _))

lemma mem_cleaned_of_mem_group {scoreFn : ScoreFn} {t : Nat} {col : List (Option String)}
    {g : List String} {x : String}
    (hg : g ∈ fuzzy_group scoreFn t (dedupFirst (cleanedCol col))) (hx : x ∈ g) :
    x ∈ cleanedCol col := by
  have h1 := (mem_fuzzy_group_flatten scoreFn t (dedupFirst (cleanedCol col)) x).mp
    (List.mem_flatten.mpr ⟨g, hg, hx⟩)
  exact mem_dedupFirst.mp h1.1

/- ============================================================
   Helper lemmas: the concentration analyzer.
   ============================================================ -/

lemma insertDescBy_perm {α : Type} (key : α → ℚ) (r : α) :
    ∀ l : List α, (insertDescBy key r l).Perm (r :: l)
  | [] => List.Perm.refl _
  | x :: xs => by
      rw [insertDescBy]
      split
      · exact List.Perm.refl _
      · exact ((insertDescBy_perm key r xs).cons x).trans (List.Perm.swap _ _ _)

lemma sortDescBy_perm {α : Type} (key : α → ℚ) :
    ∀ l : List α, (sortDescBy key l).Perm l
  | [] => List.Perm.refl _
  | x :: xs => by
      rw [sortDescBy, List.foldr_cons]
      exact (insertDescBy_perm key x _).trans ((sortDescBy_perm key xs).cons x)

lemma sortDesc_perm (rows : List (String × Nat)) : (sortDesc rows).Perm rows :=
  sortDescBy_perm _ rows

lemma totalCount_sortDesc (rows : List (String × Nat)) :
    totalCount (sortDesc rows) = totalCount rows := by
  unfold totalCount
  exact ((sortDesc_perm rows).map (fun r => r.2)).sum_eq

-- ===== lagged lemmas =====

lemma length_lagged : ∀ (a : Nat) (rows : List (String × Nat)),
    (lagged a rows).length = rows.length
  | _, [] => rfl
  | a, r :: rest => by
      rw [lagged, List.length_cons, List.length_cons, length_lagged]

lemma map_fst_lagged : ∀ (a : Nat) (rows : List (String × Nat)),
    (lagged a rows).map (fun rp => rp.1) = rows
  | _, [] => rfl
  | a, r :: rest => by
      rw [lagged, List.map_cons, map_fst_lagged]

lemma get_lagged : ∀ (a : Nat) (rows : List (String × Nat)) (i : Nat)
    (h1 : i < (lagged a rows).length) (h2 : i < rows.length),
    (lagged a rows).get ⟨i, h1⟩ = (rows.get ⟨i, h2⟩, a + totalCount (rows.take i))
  | a, r :: rest, 0, h1, h2 => by simp [lagged, totalCount]
  | a, r :: rest, i + 1, h1, h2 => by
      have h1' : i < (lagged (a + r.2) rest).length := by
        have ha := length_lagged a (r :: rest)
        have hb := length_lagged (a + r.2) rest
        rw [List.length_cons] at ha
        omega
      have h2' : i < rest.length := by
        rw [List.length_cons] at h2
        omega
      show ((r, a) :: lagged (a + r.2) rest).get ⟨i + 1, _⟩ = _
      rw [List.get_cons_succ, get_lagged (a + r.2) rest i h1' h2']
      show _ = ((r :: rest).get ⟨i + 1, h2⟩, a + totalCount ((r :: rest).take (i + 1)))
      rw [List.get_cons_succ, List.take_succ_cons]
      unfold totalCount
      rw [List.map_cons, List.sum_cons]
      congr 1
      omega

lemma prefixBefore_eq (rows : List (String × Nat)) (i : Nat) (h : i < rows.length) :
    prefixBefore rows i = totalCount (rows.take i) := by
  unfold prefixBefore
  have hlen : i < ((lagged 0 rows).map (fun rp => rp.2)).length := by
    rw [List.length_map, length_lagged]
    exact h
  have h1 : i < (lagged 0 rows).length := by
    rw [length_lagged]; exact h
  rw [List.getD_eq_getElem _ _ hlen]
  rw [List.getElem_map]
  have h2 : (lagged 0 rows)[i] = (rows.get ⟨i, h⟩, 0 + totalCount (rows.take i)) := by
    have h3 := get_lagged 0 rows i h1 h
    simpa [List.get_eq_getElem] using h3
  rw [h2]
  simp

-- ===== membership characterization =====

lemma mem_selectCore_iff {t : ℚ} {rows : List (String × Nat)} (hnd : rows.Nodup)
    (i : Fin rows.length) :
    rows.get i ∈ selectCore t rows ↔
      ((prefixBefore rows i : ℚ) / (totalCount rows : ℚ) < t) := by
  unfold selectCore
  rw [List.mem_map]
  constructor
  · rintro ⟨rp, hrp, hfst⟩
    rw [List.mem_filter] at hrp
    obtain ⟨hmem, hpred⟩ := hrp
    obtain ⟨j, hj⟩ := List.mem_iff_get.mp hmem
    have hj2 : (j : Nat) < rows.length := by
      have ha := j.isLt
      have hb := length_lagged 0 rows
      omega
    rw [← hj, get_lagged 0 rows j j.isLt hj2] at hfst hpred
    simp only at hfst
    have hij : (⟨(j : Nat), hj2⟩ : Fin rows.length) = i := by
      rw [← List.Nodup.get_inj_iff hnd]
      exact hfst
    rw [← hij, prefixBefore_eq rows j hj2]
    simpa using hpred
  · intro hfrac
    have h1 : (i : Nat) < (lagged 0 rows).length := by
      rw [length_lagged]; exact i.isLt
    refine ⟨(lagged 0 rows).get ⟨i, h1⟩, ?_, ?_⟩
    · rw [List.mem_filter]
      refine ⟨List.get_mem _ _ _, ?_⟩
      rw [get_lagged 0 rows i h1 i.isLt]
      rw [prefixBefore_eq rows i i.isLt] at hfrac
      simpa using hfrac
    · rw [get_lagged 0 rows i h1 i.isLt]

-- ===== nonemptiness and the fallback =====

lemma selectCore_ne_nil {t : ℚ} {rows : List (String × Nat)} (h0 : 0 < t)
    (hnd : rows.Nodup) (hne : rows ≠ []) : selectCore t rows ≠ [] := by
  have hlen : 0 < rows.length := List.length_pos.mpr hne
  have hmem := (mem_selectCore_iff (t := t) hnd ⟨0, hlen⟩).mpr ?_
  · exact List.ne_nil_of_mem hmem
  · have hz : prefixBefore rows 0 = 0 := by
      rw [prefixBefore_eq rows 0 hlen]
      simp [totalCount]
    rw [hz]
    push_cast
    rw [zero_div]
    exact h0

lemma select80_eq_selectCore {t : ℚ} {rows : List (String × Nat)} (h0 : 0 < t)
    (hnd : rows.Nodup) (hne : rows ≠ []) : select80 t rows = selectCore t rows := by
  unfold select80
  rw [if_neg (selectCore_ne_nil h0 hnd hne)]

-- ===== sublist facts for the Other bucket =====

lemma selectCore_sublist (t : ℚ) (rows : List (String × Nat)) :
    (selectCore t rows).Sublist rows := by
  unfold selectCore
  have h1 := (List.filter_sublist (l := lagged 0 rows)
    (p := fun rp => decide ((rp.2 : ℚ) / (totalCount rows : ℚ) < t))).map (fun rp => rp.1)
  rwa [map_fst_lagged] at h1

lemma select80_sublist (t : ℚ) (rows : List (String × Nat)) :
    (select80 t rows).Sublist rows := by
  unfold select80
  split
  · exact List.take_sublist _ _
  · exact selectCore_sublist t rows

lemma totalCount_le_of_sublist {l1 l2 : List (String × Nat)} (h : l1.Sublist l2) :
    totalCount l1 ≤ totalCount l2 := by
  unfold totalCount
  exact List.Sublist.sum_le_sum (h.map (fun r => r.2)) (by intro x _; exact Nat.zero_le x)

/- ============================================================
   Helper lemmas: the temporal outlier detector.
   ============================================================ -/

lemma sum_const_list {l : List ℚ} {c : ℚ} (h : ∀ x ∈ l, x = c) :
    l.sum = l.length * c := by
  induction l with
  | nil => simp
  | cons a l ih =>
      rw [List.sum_cons, List.length_cons]
      rw [h a (List.mem_cons_self _ _), ih (fun x hx => h x (List.mem_cons_of_mem _ hx))]
      push_cast
      ring

lemma meanOf_const {l : List ℚ} {c : ℚ} (hne : l ≠ []) (h : ∀ x ∈ l, x = c) :
    meanOf l = c := by
  unfold meanOf
  rw [sum_const_list h]
  have hl : (l.length : ℚ) ≠ 0 := by
    have h0 := List.length_pos.mpr hne
    simp only [ne_eq, Nat.cast_eq_zero]
    omega
  field_simp

lemma sampleVar_const {l : List ℚ} {c : ℚ} (h : ∀ x ∈ l, x = c) :
    sampleVar l = 0 := by
  unfold sampleVar
  rcases eq_or_ne l [] with rfl | hne
  · simp
  · have hm := meanOf_const hne h
    have hz : l.map (fun x => (x - meanOf l) ^ 2) = l.map (fun _ => (0 : ℚ)) := by
      apply List.map_congr_left
      intro x hx
      rw [h x hx, hm]
      ring
    rw [hz]
    simp

/- ============================================================
   Claim theorems: the fuzzy grouper and the normalizer.
   ============================================================ -/

/-- C9: the Text Normalizer is a pure total function; missing input
yields the empty string; a present string is uppercased with characters
outside [A-Z0-9 space] replaced by spaces, whitespace runs collapsed,
and ends trimmed; the two worked examples of the spec hold. -/
theorem normalize_text_spec :
    normalize_text none = "" ∧
    (∀ s : String, normalize_text (some s) =
      String.mk (stripSpaces (collapseSpaces ((s.data.map Char.toUpper).map replaceChar)))) ∧
    normalize_text (some "Medtronic, Inc.") = "MEDTRONIC INC" ∧
    normalize_text (some " ACME--22 ") = "ACME 22" :=
  ⟨rfl, fun _ => rfl, by decide, by decide⟩

/-- C10: the Text Normalizer is idempotent — normalizing an
already-normalized string is a no-op. -/
theorem normalize_text_idem (x : Option String) :
    normalize_text (some (normalize_text x)) = normalize_text x := by
  cases x with
  | none => rfl
  | some s => exact normalizeStr_idem s

/-- C2 (amended): for a list of distinct normalized values, the clusters
of the Fuzzy Grouper are pairwise disjoint and their union is the set of
distinct NON-EMPTY input values; the empty string is skipped by the
grouper and belongs to no cluster. -/
theorem fuzzy_group_partition (scoreFn : ScoreFn) (t : Nat) (values : List String)
    (h : values.Nodup) :
    (fuzzy_group scoreFn t values).Pairwise List.Disjoint ∧
    (∀ x, x ∈ (fuzzy_group scoreFn t values).flatten ↔ (x ∈ values ∧ x ≠ "")) :=
  ⟨fuzzy_group_pairwise_disjoint scoreFn t h, mem_fuzzy_group_flatten scoreFn t values⟩

/-- Witness for `fuzzy_group_partition` at a concrete input. -/
theorem fuzzy_group_partition_witness :
    (["ACME", "ACNE", "WIDGET"] : List String).Nodup ∧
    ((fuzzy_group zeroScore 85 ["ACME", "ACNE", "WIDGET"]).Pairwise List.Disjoint ∧
     (∀ x, x ∈ (fuzzy_group zeroScore 85 ["ACME", "ACNE", "WIDGET"]).flatten ↔
        (x ∈ (["ACME", "ACNE", "WIDGET"] : List String) ∧ x ≠ ""))) :=
  ⟨by decide, fuzzy_group_partition zeroScore 85 _ (by decide)⟩

/-- C2 counterexample: with the empty string present among the distinct
input values, it belongs to no cluster, so the union of the clusters is
not the full set of distinct input values as the claim states. -/
theorem fuzzy_group_partition_cex :
    ("" ∈ (["", "A"] : List String)) ∧ (["", "A"] : List String).Nodup ∧
    fuzzy_group zeroScore 85 ["", "A"] = [["A"]] ∧
    "" ∉ (fuzzy_group zeroScore 85 ["", "A"]).flatten :=
  ⟨by decide, by decide, by decide, by decide⟩

/-- C6 (amended): on values that contain no empty string, the Fuzzy
Grouper implements exactly the spec's greedy step — compare to each
existing cluster's seed in creation order, join the first scoring
strictly above the threshold, else open a new cluster — and empty input
yields an empty cluster list. Empty strings, however, are skipped. -/
theorem fuzzy_group_step_spec (scoreFn : ScoreFn) (t : Nat) (values : List String)
    (h : "" ∉ values) :
    fuzzy_group scoreFn t values = spec_group scoreFn t values ∧
    fuzzy_group scoreFn t [] = [] :=
  ⟨fuzzy_fold_eq_spec_fold scoreFn t values [] h, rfl⟩

/-- Witness for `fuzzy_group_step_spec` at a concrete input. -/
theorem fuzzy_group_step_spec_witness :
    ("" ∉ (["AAA", "AA", "AB"] : List String)) ∧
    (fuzzy_group exScore 85 ["AAA", "AA", "AB"] = spec_group exScore 85 ["AAA", "AA", "AB"] ∧
     fuzzy_group exScore 85 [] = []) :=
  ⟨by decide, fuzzy_group_step_spec exScore 85 _ (by decide)⟩

/-- C6 counterexample: on the input consisting of the single empty
string, the code returns no clusters, while the claimed step ("otherwise
starts a new cluster with that value") would return one cluster. -/
theorem fuzzy_group_step_spec_cex :
    fuzzy_group zeroScore 85 [""] = [] ∧
    spec_group zeroScore 85 [""] = [[""]] ∧
    ([] : List (List String)) ≠ [[""]] :=
  ⟨by decide, by decide, by decide⟩

/-- C7: the canonical label of a non-empty cluster is a member of the
cluster, has minimal string length, and is the earliest member attaining
that length (everything strictly before it in the cluster is strictly
longer). -/
theorem canonical_label_spec (g : List String) (h : g ≠ []) :
    canonicalOf g ∈ g ∧
    (∀ x ∈ g, (canonicalOf g).length ≤ x.length) ∧
    ∃ l1 l2, g = l1 ++ canonicalOf g :: l2 ∧
      ∀ x ∈ l1, (canonicalOf g).length < x.length := by
  obtain ⟨l1, l2, he, hlt, hle⟩ := canonicalOf_spec h
  exact ⟨canonicalOf_mem h, hle, l1, l2, he, hlt⟩

/-- Witness for `canonical_label_spec` at a concrete cluster. -/
theorem canonical_label_spec_witness :
    ((["BBB", "AA", "CC"] : List String) ≠ []) ∧
    (canonicalOf ["BBB", "AA", "CC"] ∈ (["BBB", "AA", "CC"] : List String) ∧
     (∀ x ∈ (["BBB", "AA", "CC"] : List String),
        (canonicalOf ["BBB", "AA", "CC"]).length ≤ x.length) ∧
     ∃ l1 l2, (["BBB", "AA", "CC"] : List String) = l1 ++ canonicalOf ["BBB", "AA", "CC"] :: l2 ∧
       ∀ x ∈ l1, (canonicalOf ["BBB", "AA", "CC"]).length < x.length) :=
  ⟨by decide, canonical_label_spec ["BBB", "AA", "CC"] (by decide)⟩

/- ============================================================
   Claim theorems: the category standardizer.
   ============================================================ -/

/-- C1 (amended): the mapping built by standardize_series is total on
the observed NON-EMPTY normalized values — each maps to exactly one
canonical label — but the empty normalized value is absent from the
mapping (the grouper skips it), so empty or missing inputs standardize
to a missing value (`none`), not to the empty string. -/
theorem standardize_mapping_total (scoreFn : ScoreFn) (t : Nat)
    (col : List (Option String)) :
    (∀ v ∈ cleanedCol col, v ≠ "" → ∃ c, mappingOf scoreFn t col v = some c) ∧
    mappingOf scoreFn t col "" = none := by
  refine ⟨?_, mappingOf_empty scoreFn t col⟩
  intro v hv hne
  obtain ⟨g, _, _, hm⟩ := mappingOf_some scoreFn t hv hne
  exact ⟨canonicalOf g, hm⟩

/-- Witness for `standardize_mapping_total` at a concrete column. -/
theorem standardize_mapping_total_witness :
    ("AB" ∈ cleanedCol [some "AB"]) ∧ (("AB" : String) ≠ "") ∧
    (∃ c, mappingOf zeroScore 85 [some "AB"] "AB" = some c) ∧
    mappingOf zeroScore 85 [some "AB"] "" = none :=
  ⟨by decide, by decide,
    (standardize_mapping_total zeroScore 85 [some "AB"]).1 "AB" (by decide) (by decide),
    (standardize_mapping_total zeroScore 85 [some "AB"]).2⟩

/-- C1 counterexample: the raw value "-" normalizes to the empty string,
which the mapping does not contain — it maps to `none`, not to itself —
so the standardized column holds a missing value where the claim
requires the empty string. -/
theorem standardize_mapping_total_cex :
    normalize_text (some "-") = "" ∧
    mappingOf zeroScore 85 [some "-"] "" = none ∧
    ¬ (mappingOf zeroScore 85 [some "-"] "" = some "") ∧
    standardize_series zeroScore 85 [some "-"] = [none] :=
  ⟨by decide, by decide, by decide, by decide⟩

/-- C5 (amended): applying normalization followed by the SAME canonical
mapping to an already-standardized column is a no-op, and every
cluster's canonical label maps to itself. (Re-running the full
standardization, which rebuilds the clusters from the standardized
column, is not a no-op in general — see the counterexample.) -/
theorem standardize_reapply_noop (scoreFn : ScoreFn) (t : Nat)
    (col : List (Option String)) :
    (standardize_series scoreFn t col).map
        (fun x => mappingOf scoreFn t col (normalize_text x)) =
      standardize_series scoreFn t col ∧
    (∀ g ∈ fuzzy_group scoreFn t (dedupFirst (cleanedCol col)),
      mappingOf scoreFn t col (canonicalOf g) = some (canonicalOf g)) := by
  constructor
  · unfold standardize_series
    rw [List.map_map]
    apply List.map_congr_left
    intro w hw
    simp only [Function.comp_apply]
    by_cases hne : w = ""
    · subst hne
      rw [mappingOf_empty scoreFn t col]
      exact mappingOf_empty scoreFn t col
    · obtain ⟨g, hg, hxg, hm⟩ := mappingOf_some scoreFn t hw hne
      rw [hm]
      have hc : canonicalOf g ∈ cleanedCol col :=
        mem_cleaned_of_mem_group hg (canonicalOf_mem (fuzzy_group_ne_nil scoreFn t _ g hg))
      have hfix : normalize_text (some (canonicalOf g)) = canonicalOf g :=
        normalizeStr_of_mem_cleaned hc
      rw [hfix, mappingOf_canonical hg]
  · intro g hg
    exact mappingOf_canonical hg

/-- Witness for `standardize_reapply_noop` at a concrete column. -/
theorem standardize_reapply_noop_witness :
    (standardize_series exScore 85 exCol).map
        (fun x => mappingOf exScore 85 exCol (normalize_text x)) =
      standardize_series exScore 85 exCol ∧
    (∀ g ∈ fuzzy_group exScore 85 (dedupFirst (cleanedCol exCol)),
      mappingOf exScore 85 exCol (canonicalOf g) = some (canonicalOf g)) :=
  standardize_reapply_noop exScore 85 exCol

/-- C5 counterexample: re-running standardize_series on an
already-standardized column is NOT a no-op — under a conforming
similarity function (scores in 0..100) the canonicals "AA" and "AB" of
two distinct clusters score above the threshold on the second pass and
merge, changing "AB" to "AA". -/
theorem standardize_idem_cex :
    standardize_series exScore 85 exCol = [some "AA", some "AA", some "AB"] ∧
    standardize_series exScore 85 (standardize_series exScore 85 exCol) =
      [some "AA", some "AA", some "AA"] ∧
    standardize_series exScore 85 (standardize_series exScore 85 exCol) ≠
      standardize_series exScore 85 exCol :=
  ⟨by decide, by decide, by decide⟩


/- ============================================================
   Claim theorems: the concentration analyzer and the outlier
   detector.
   ============================================================ -/

/-- C3: the Pareto selection over the count-descending table keeps
exactly the categories whose preceding cumulative fraction of the grand
total is strictly below the threshold; with a nonzero total at least one
category is always selected, and the category that makes the cumulative
fraction cross the threshold is itself selected (never split). -/
theorem concentration_selection_rule (counts : List (String × Nat)) (t : ℚ)
    (h0 : 0 < t) (h1 : t < 1) (hnd : counts.Nodup) (hT : totalCount counts ≠ 0) :
    ParetoSelectionCorrect counts t := by
  have hperm := sortDesc_perm counts
  have hnd2 : (sortDesc counts).Nodup := hperm.nodup_iff.mpr hnd
  have htot : totalCount (sortDesc counts) = totalCount counts := totalCount_sortDesc counts
  have hcne : counts ≠ [] := by
    intro h
    subst h
    exact hT rfl
  have hne : sortDesc counts ≠ [] := by
    intro h
    apply hcne
    have hp2 := hperm.symm
    rw [h] at hp2
    exact hp2.eq_nil
  have hsel : concentrationSelect t counts = selectCore t (sortDesc counts) := by
    unfold concentrationSelect
    exact select80_eq_selectCore h0 hnd2 hne
  have hiff : ∀ i : Fin (sortDesc counts).length,
      (sortDesc counts).get i ∈ concentrationSelect t counts ↔
        (prefixBefore (sortDesc counts) i : ℚ) / (totalCount counts : ℚ) < t := by
    intro i
    rw [hsel, ← htot]
    exact mem_selectCore_iff hnd2 i
  refine ⟨hiff, ?_, ?_⟩
  · rw [hsel]
    exact selectCore_ne_nil h0 hnd2 hne
  · intro i hfrac _
    exact (hiff i).mpr hfrac

/-- Witness for `concentration_selection_rule` at the spec's worked
example {A:50, B:30, C:15, D:5} with t = 0.80. -/
theorem concentration_selection_rule_witness :
    (0 : ℚ) < 4 / 5 ∧ (4 / 5 : ℚ) < 1 ∧
    ([("A", 50), ("B", 30), ("C", 15), ("D", 5)] : List (String × Nat)).Nodup ∧
    totalCount [("A", 50), ("B", 30), ("C", 15), ("D", 5)] ≠ 0 ∧
    ParetoSelectionCorrect [("A", 50), ("B", 30), ("C", 15), ("D", 5)] (4 / 5) :=
  ⟨by norm_num, by norm_num, by decide, by decide,
   concentration_selection_rule _ _ (by norm_num) (by norm_num) (by decide) (by decide)⟩

/-- C4: for every Concentration Result, the sum of the selected
categories' counts plus the Other bucket equals the grand total exactly
(and the Other bucket is never negative). -/
theorem concentration_other_exact (t : ℚ) (counts : List (String × Nat)) :
    (totalCount (concentrationSelect t counts) : ℤ) + otherCount t counts =
      (totalCount counts : ℤ) ∧
    0 ≤ otherCount t counts := by
  constructor
  · unfold otherCount
    ring
  · unfold otherCount
    have h1 : totalCount (concentrationSelect t counts) ≤ totalCount counts := by
      have h2 := totalCount_le_of_sublist (select80_sublist t (sortDesc counts))
      rw [totalCount_sortDesc] at h2
      exact h2
    omega

theorem zero_variance_no_outliers (sqrtFn : ℚ → ℚ) (hs : sqrtFn 0 = 0)
    (bs : List (Nat × ℚ)) (c : ℚ) (hc : ∀ b ∈ bs, b.2 = c) :
    significantPeaks sqrtFn bs = [] ∧ significantValleys sqrtFn bs = [] := by
  have hconst : ∀ x ∈ bs.map (fun b => b.2), x = c := by
    intro x hx
    rcases List.mem_map.1 hx with ⟨b, hb, rfl⟩
    exact hc b hb
  have hvar : sampleVar (bs.map (fun b => b.2)) = 0 := sampleVar_const hconst
  have hz : zScoreCol (sqrtFn (sampleVar (bs.map (fun b => b.2))))
      (meanOf (bs.map (fun b => b.2))) bs = bs.map (fun b => (b, none)) := by
    unfold zScoreCol
    apply List.map_congr_left
    intro b _
    rw [hvar, hs, if_pos rfl]
  constructor
  · unfold significantPeaks
    rw [hz]
    have hf : (bs.map (fun b => ((b, none) : (Nat × ℚ) × Option ℚ))).filter
        (fun bz => match bz.2 with | some z => decide (2 ≤ z) | none => false) = [] := by
      rw [List.filter_eq_nil_iff]
      intro bz hbz
      rcases List.mem_map.1 hbz with ⟨b, _, rfl⟩
      simp
    rw [hf]
    rfl
  · unfold significantValleys
    rw [hz]
    have hf : (bs.map (fun b => ((b, none) : (Nat × ℚ) × Option ℚ))).filter
        (fun bz => match bz.2 with | some z => decide (z ≤ -2) | none => false) = [] := by
      rw [List.filter_eq_nil_iff]
      intro bz hbz
      rcases List.mem_map.1 hbz with ⟨b, _, rfl⟩
      simp
    rw [hf]
    rfl

theorem zero_variance_no_outliers_witness :
    (∀ b ∈ ([(0, 5), (1, 5), (2, 5)] : List (Nat × ℚ)), b.2 = 5) ∧
    significantPeaks (fun q => q) [(0, 5), (1, 5), (2, 5)] = [] ∧
    significantValleys (fun q => q) [(0, 5), (1, 5), (2, 5)] = [] := by
  refine ⟨by decide, ?_⟩
  exact zero_variance_no_outliers (fun q => q) rfl [(0, 5), (1, 5), (2, 5)] 5 (by decide)

end OpenFDAReport
